import Mathlib

/-!
Verification of the log-normalization core of `llm-incident-copilot`
(`backend/app/parsers.py` and `backend/app/ingest.py`).

Python strings are modelled as `List Char`.  The model covers LF (`'\n'`)
newlines and ASCII whitespace/case, which is the fragment exercised by the
code and its spec.  `json.loads` and the four Java/ZooKeeper/syslog/logfmt
regular expressions are opaque library calls in the source; they are
modelled as oracle parameters (`Oracles`), and every theorem below is
proved for all oracle instantiations (counterexamples instantiate them
concretely).  The fixed-shape timestamp and level regexes
(`TIMESTAMP_PATTERN`, `LEVEL_PATTERN`, `TS_RE`, `LEVEL_RE`) are embedded
directly.
-/

namespace LogCopilot

/-- ASCII whitespace, as recognised by Python's `str.strip` /
blank-line tests on the ASCII fragment. -/
def isWS (c : Char) : Bool :=
  c = ' ' || c = '\t' || c = '\n' || c = '\r' || c = Char.ofNat 11 || c = Char.ofNat 12

/-- Python `str.lstrip()`. -/
def lstrip (l : List Char) : List Char := l.dropWhile isWS

/-- Python `str.rstrip()`. -/
def rstrip (l : List Char) : List Char := (l.reverse.dropWhile isWS).reverse

/-- Python `str.strip()`. -/
def pyStrip (l : List Char) : List Char := rstrip (lstrip l)

/-- A line is non-blank when `line.strip()` is truthy (non-empty). -/
def nonBlank (l : List Char) : Bool := pyStrip l ≠ []

/-- Python `str.splitlines()` restricted to LF newlines:
`"" ↦ []`, `"a\n" ↦ ["a"]`, `"a\n\nb" ↦ ["a","","b"]`. -/
def splitlines : List Char → List (List Char)
  | [] => []
  | c :: rest =>
    if c = '\n' then [] :: splitlines rest
    else
      match splitlines rest with
      | [] => [[c]]
      | l :: ls => (c :: l) :: ls

/-- Python `"\n".join(lines)`. -/
def joinNL : List (List Char) → List Char
  | [] => []
  | [l] => l
  | l :: ls => l ++ '\n' :: joinNL ls

/-- `sum(len(l) for l in lines)` — the character count used by the
structured chunker (joining newlines are not counted). -/
def charSum (ls : List (List Char)) : Nat := (ls.map List.length).sum

/-! ### Python values (for JSON data and parsed fields) -/

/-- A Python value as it can appear in parsed JSON data or in a
`ParsedLogLine` field (`None` models an unset optional field). -/
inductive PyVal where
  | PNone : PyVal
  | PBool : Bool → PyVal
  | PInt : Int → PyVal
  | PStr : List Char → PyVal
  | PList : List PyVal → PyVal
  | PDict : List (List Char × PyVal) → PyVal

open PyVal

/-- Python truthiness of a value. -/
def pyTruthy : PyVal → Bool
  | .PNone => false
  | .PBool b => b
  | .PInt n => n ≠ 0
  | .PStr s => !s.isEmpty
  | .PList l => !l.isEmpty
  | .PDict d => !d.isEmpty

/-- `v is None` (Python identity test against `None`). -/
def PyVal.isNone : PyVal → Bool
  | .PNone => true
  | _ => false

/-- Python `v in (w₁, …, wₙ)` where the `wᵢ` are string literals:
true iff `v` is a string equal to one of them. -/
def pyInStrs (v : PyVal) (ws : List (List Char)) : Bool :=
  match v with
  | .PStr s => ws.contains s
  | _ => false

/-- Python `a or b`: `a` if truthy, else `b`. -/
def pyOr (a b : PyVal) : PyVal := if pyTruthy a then a else b

/-- Python `.upper()` on the ASCII fragment; non-string values are
returned unchanged (outside the modelled fragment CPython would raise
`AttributeError` there; the code only reaches `.upper()` on strings
and `None`-defaulted strings for well-formed logging data). -/
def pyUpper : PyVal → PyVal
  | .PStr s => .PStr (s.map Char.toUpper)
  | v => v

/-- `dict.get(k)` on an association-list dict: the value, or `None`. -/
def dGet (d : List (List Char × PyVal)) (k : List Char) : PyVal :=
  match d.find? (fun kv => kv.1 = k) with
  | some kv => kv.2
  | none => .PNone

/-- The Python `or`-chain `d.get(k₁) or d.get(k₂) or … or d.get(kₙ)`. -/
def getChain (d : List (List Char × PyVal)) : List (List Char) → PyVal
  | [] => .PNone
  | [k] => dGet d k
  | k :: ks => pyOr (dGet d k) (getChain d ks)

/-! ### Data model (`parsers.py`) -/

/-- `LogFormat` enumeration. -/
inductive LogFormat where
  | json | logfmt | syslog | java_structured | plain
deriving DecidableEq

/-- `LogFormat.value` — the `.value` string of the enum member. -/
def LogFormat.value : LogFormat → List Char
  | .json => "json".toList
  | .logfmt => "logfmt".toList
  | .syslog => "syslog".toList
  | .java_structured => "java_structured".toList
  | .plain => "plain".toList

/-- `ParsedLogLine`: one parsed log entry.  Optional string fields hold
`PyVal` values (`PNone` = unset, matching the dataclass defaults); `extra`
is `none` when unset and otherwise an insertion-ordered dict. -/
structure ParsedLogLine where
  raw : List Char
  timestamp : PyVal := .PNone
  level : PyVal := .PNone
  message : PyVal := .PNone
  logger : PyVal := .PNone
  thread : PyVal := .PNone
  extra : Option (List (List Char × PyVal)) := none

/-- Oracle parameters for the opaque library calls of `parsers.py`:
`json.loads` (`none` = raises), `LOGFMT_PATTERN.finditer/findall`
(the list of matches as (group 1, chosen group-2-or-3 value) pairs),
and the three anchored `.match` calls of `ZK_LOG_PATTERN`
(groups ts, level, thread-info, message), `JAVA_LOG_PATTERN`
(groups ts, level, thread, logger, message) and `SYSLOG_PATTERN`
(groups ts, host, tag, optional pid, message). -/
structure Oracles where
  loads : List Char → Option PyVal
  logfmtFindall : List Char → List (List Char × List Char)
  zkMatch : List Char → Option (List Char × List Char × List Char × List Char)
  javaMatch : List Char → Option (List Char × List Char × List Char × List Char × List Char)
  syslogMatch : List Char → Option (List Char × List Char × List Char × Option (List Char) × List Char)

/-- The trivial oracle: nothing parses and no regex matches. -/
def oracle0 : Oracles where
  loads := fun _ => none
  logfmtFindall := fun _ => []
  zkMatch := fun _ => none
  javaMatch := fun _ => none
  syslogMatch := fun _ => none

/-! ### Concrete timestamp and level regexes -/

def isDigit (c : Char) : Bool := '0' ≤ c && c ≤ '9'

/-- `l` starts with `n` digits; on success return the remainder. -/
def eatDigits : Nat → List Char → Option (List Char)
  | 0, l => some l
  | n + 1, [] => (fun _ => none) n
  | n + 1, c :: l => if isDigit c then eatDigits n l else none

/-- `l` starts with the exact char `c`; on success return the remainder. -/
def eatChar (c : Char) : List Char → Option (List Char)
  | [] => none
  | c' :: l => if c' = c then some l else none

/-- `TIMESTAMP_PATTERN` / `TS_RE` matched at the start of `l`:
`\d{4}-\d{2}-\d{2}[ T]\d{2}:\d{2}:\d{2}`. -/
def tsMatchAt (l : List Char) : Bool :=
  (do
    let l ← eatDigits 4 l
    let l ← eatChar '-' l
    let l ← eatDigits 2 l
    let l ← eatChar '-' l
    let l ← eatDigits 2 l
    let l ← (match l with
             | c :: l' => if c = ' ' || c = 'T' then some l' else none
             | [] => none)
    let l ← eatDigits 2 l
    let l ← eatChar ':' l
    let l ← eatDigits 2 l
    let l ← eatChar ':' l
    let _ ← eatDigits 2 l
    pure ()).isSome

/-- `TIMESTAMP_PATTERN.search(l)`: the first (leftmost) match; the
pattern has fixed length 19, so `group(0)` is 19 characters. -/
def tsSearch : List Char → Option (List Char)
  | [] => none
  | l@(_ :: rest) => if tsMatchAt l then some (l.take 19) else tsSearch rest

/-- Python `\w` word characters on the ASCII fragment. -/
def isWordChar (c : Char) : Bool :=
  ('a' ≤ c && c ≤ 'z') || ('A' ≤ c && c ≤ 'Z') || isDigit c || c = '_'

/-- Case-insensitive match of the word `w` (given uppercase) at the head
of `l`, requiring a `\b` word boundary after it. -/
def wordAt (w : List Char) (l : List Char) : Bool :=
  (l.take w.length).map Char.toUpper = w &&
    (match l.drop w.length with
     | [] => true
     | c :: _ => !isWordChar c)

/-- Try the alternatives of a level regex, in their alternation order,
at the head of `l` (with regex backtracking, e.g. `WARN` then `WARNING`).
Returns `group(1)` in its original case. -/
def tryWords (ws : List (List Char)) (l : List Char) : Option (List Char) :=
  match ws with
  | [] => none
  | w :: ws' => if wordAt w l then some (l.take w.length) else tryWords ws' l

/-- `re.search` for `\b(w₁|…|wₙ)\b` with `re.IGNORECASE`: scan positions
left to right; at each position the preceding character must not be a
word character (the leading `\b`, since all alternatives start with a
word character). -/
def levelSearchAux (ws : List (List Char)) (prev : Option Char) : List Char → Option (List Char)
  | [] => none
  | l@(c :: rest) =>
    let okBefore := match prev with
      | none => true
      | some p => !isWordChar p
    match (if okBefore then tryWords ws l else none) with
    | some g => some g
    | none => levelSearchAux ws (some c) rest

def levelSearch (ws : List (List Char)) (l : List Char) : Option (List Char) :=
  levelSearchAux ws none l

/-- Alternatives of `parsers.py`'s `LEVEL_PATTERN`, in alternation order. -/
def parserLevelWords : List (List Char) :=
  ["INFO".toList, "WARN".toList, "WARNING".toList, "ERROR".toList,
   "DEBUG".toList, "TRACE".toList, "FATAL".toList, "CRITICAL".toList]

/-- Alternatives of `ingest.py`'s `LEVEL_RE`, in alternation order. -/
def ingestLevelWords : List (List Char) :=
  ["ERROR".toList, "WARN".toList, "WARNING".toList, "FATAL".toList,
   "CRITICAL".toList]

/-! ### Line parsers (`parsers.py`) -/

/-- Keys excluded from `extra` in `_parse_json_line`. -/
def jsonKnownKeys : List (List Char) :=
  ["timestamp".toList, "time".toList, "@timestamp".toList, "ts".toList,
   "level".toList, "severity".toList, "log_level".toList,
   "message".toList, "msg".toList, "log".toList,
   "logger".toList, "name".toList, "source".toList,
   "thread".toList, "thread_name".toList]

/-- Is the loaded value a dict?  (`data.get` raises on anything else.) -/
def PyVal.isDict : PyVal → Bool
  | .PDict _ => true
  | _ => false

/-- `_parse_json_line`: on a dict, fill fields through the `or`-chains of
synonym keys and put the remaining keys in `extra`; when `json.loads`
raises, or the loaded value is not a dict (so the first `data.get`
raises `AttributeError`), the bare `except` leaves only `message := line`. -/
def parseJsonLine (o : Oracles) (line : List Char) : ParsedLogLine :=
  match o.loads line with
  | some (.PDict d) =>
    { raw := line
      timestamp := getChain d ["timestamp".toList, "time".toList, "@timestamp".toList, "ts".toList]
      level := getChain d ["level".toList, "severity".toList, "log_level".toList]
      message := getChain d ["message".toList, "msg".toList, "log".toList]
      logger := getChain d ["logger".toList, "name".toList, "source".toList]
      thread := getChain d ["thread".toList, "thread_name".toList]
      extra := some (d.filter (fun kv => !jsonKnownKeys.contains kv.1)) }
  | _ => { raw := line, message := .PStr line }

/-- Keys excluded from `extra` in `_parse_logfmt_line`. -/
def logfmtKnownKeys : List (List Char) :=
  ["time".toList, "timestamp".toList, "ts".toList,
   "level".toList, "lvl".toList, "severity".toList,
   "msg".toList, "message".toList,
   "logger".toList, "component".toList, "caller".toList]

/-- Python dict assignment `d[k] = v`: replace in place, else append. -/
def dictSet (d : List (List Char × List Char)) (k v : List Char) :
    List (List Char × List Char) :=
  if d.any (fun kv => kv.1 = k) then
    d.map (fun kv => if kv.1 = k then (k, v) else kv)
  else d ++ [(k, v)]

/-- `fields.get(k)` on the logfmt string dict, as a `PyVal`. -/
def fGet (d : List (List Char × List Char)) (k : List Char) : PyVal :=
  match d.find? (fun kv => kv.1 = k) with
  | some kv => .PStr kv.2
  | none => .PNone

/-- The `or`-chain `fields.get(k₁) or … or fields.get(kₙ)`. -/
def fChain (d : List (List Char × List Char)) : List (List Char) → PyVal
  | [] => .PNone
  | [k] => fGet d k
  | k :: ks => pyOr (fGet d k) (fChain d ks)

/-- `_parse_logfmt_line`: build `fields` from the regex matches with keys
lowercased, fill the named fields through `or`-chains, collect the rest
in `extra` (`thread` is never assigned). -/
def parseLogfmtLine (o : Oracles) (line : List Char) : ParsedLogLine :=
  let fields := (o.logfmtFindall line).foldl
    (fun d kv => dictSet d (kv.1.map Char.toLower) kv.2) []
  { raw := line
    timestamp := fChain fields ["time".toList, "timestamp".toList, "ts".toList]
    level := fChain fields ["level".toList, "lvl".toList, "severity".toList]
    message := fChain fields ["msg".toList, "message".toList]
    logger := fChain fields ["logger".toList, "component".toList, "caller".toList]
    extra := some ((fields.filter (fun kv => !logfmtKnownKeys.contains kv.1)).map
      (fun kv => (kv.1, PyVal.PStr kv.2))) }

/-- `_parse_plain_line`: best-effort timestamp/level search. -/
def parsePlainLine (line : List Char) : ParsedLogLine :=
  { raw := line
    timestamp := match tsSearch line with
      | some t => .PStr t
      | none => .PNone
    level := match levelSearch parserLevelWords line with
      | some g => .PStr (g.map Char.toUpper)
      | none => .PNone
    message := .PStr line }

/-- Python `s.split(c, 1)` given that `c` occurs in `s`: the parts before
and after the first occurrence. -/
def splitOnce (c : Char) : List Char → List Char × List Char
  | [] => ([], [])
  | x :: l =>
    if x = c then ([], l)
    else
      let p := splitOnce c l
      (x :: p.1, p.2)

/-- `_parse_java_line`: ZooKeeper pattern first (splitting the
thread-info group on the first `:` into thread and logger), then the
generic Java pattern, then the plain fallback. -/
def parseJavaLine (o : Oracles) (line : List Char) : ParsedLogLine :=
  match o.zkMatch line with
  | some (ts, lvl, threadInfo, msg) =>
    if threadInfo.contains ':' then
      let p := splitOnce ':' threadInfo
      { raw := line, timestamp := .PStr ts, level := .PStr lvl,
        thread := .PStr p.1, logger := .PStr p.2, message := .PStr msg }
    else
      { raw := line, timestamp := .PStr ts, level := .PStr lvl,
        thread := .PStr threadInfo, message := .PStr msg }
  | none =>
    match o.javaMatch line with
    | some (ts, lvl, thr, lgr, msg) =>
      { raw := line, timestamp := .PStr ts, level := .PStr lvl,
        thread := .PStr thr, logger := .PStr lgr, message := .PStr msg }
    | none => parsePlainLine line

/-- `_parse_syslog_line`. -/
def parseSyslogLine (o : Oracles) (line : List Char) : ParsedLogLine :=
  match o.syslogMatch line with
  | some (ts, host, tag, pid, msg) =>
    { raw := line
      timestamp := .PStr ts
      logger := .PStr tag
      message := .PStr msg
      extra := some ([("host".toList, PyVal.PStr host)] ++
        (match pid with
         | some p => if p.isEmpty then [] else [("pid".toList, PyVal.PStr p)]
         | none => [])) }
  | none => { raw := line, message := .PStr line }

/-- `parse_line`: strip the line, then dispatch on the format. -/
def parse_line (o : Oracles) (line : List Char) (fmt : LogFormat) : ParsedLogLine :=
  let line := pyStrip line
  match fmt with
  | .json => parseJsonLine o line
  | .logfmt => parseLogfmtLine o line
  | .java_structured => parseJavaLine o line
  | .syslog => parseSyslogLine o line
  | .plain => parsePlainLine line

/-! ### Format detection (`detect_format`) -/

/-- The five vote counters of `detect_format`. -/
structure Votes where
  jsonV : Nat := 0
  logfmtV : Nat := 0
  javaV : Nat := 0
  zkV : Nat := 0
  syslogV : Nat := 0

/-- Which counter one (stripped, non-blank) sample line increments:
the recognizers are tried in source order and each test `continue`s,
so a line votes at most once.  A line starting with a brace whose
`json.loads` raises falls through to the later tests. -/
def lineVote (o : Oracles) (s : List Char) : Option LogFormat :=
  if s.head? = some (Char.ofNat 123) && (o.loads s).isSome then some .json
  else if (o.logfmtFindall s).length ≥ 3 then some .logfmt
  else if (o.zkMatch s).isSome then some .java_structured
  else if (o.javaMatch s).isSome then some .java_structured
  else if (o.syslogMatch s).isSome then some .syslog
  else none

/-- Distinguish the ZooKeeper and generic-Java counters (they are kept
separately in the source and added when choosing). -/
def bumpVotes (o : Oracles) (v : Votes) (s : List Char) : Votes :=
  if s.head? = some (Char.ofNat 123) && (o.loads s).isSome then { v with jsonV := v.jsonV + 1 }
  else if (o.logfmtFindall s).length ≥ 3 then { v with logfmtV := v.logfmtV + 1 }
  else if (o.zkMatch s).isSome then { v with zkV := v.zkV + 1 }
  else if (o.javaMatch s).isSome then { v with javaV := v.javaV + 1 }
  else if (o.syslogMatch s).isSome then { v with syslogV := v.syslogV + 1 }
  else v

/-- The counting loop `for line in sample_lines[:20]` (strip, skip
blank, vote); the caller applies it to `sample.take 20`. -/
def voteLoop (o : Oracles) : List (List Char) → Votes → Votes
  | [], v => v
  | l :: ls, v =>
    let s := pyStrip l
    voteLoop o ls (if s.isEmpty then v else bumpVotes o v s)

/-- Python `max(counts, key=lambda x: x[0])` over a non-empty list:
keep the current best, replace only on a strictly greater count, so the
first maximal element wins. -/
def pyMaxFirst : Nat × LogFormat → List (Nat × LogFormat) → Nat × LogFormat
  | best, [] => best
  | best, x :: xs => pyMaxFirst (if x.1 > best.1 then x else best) xs

/-- `detect_format`. -/
def detect_format (o : Oracles) (sample_lines : List (List Char)) : LogFormat :=
  if sample_lines.isEmpty then .plain
  else
    let v := voteLoop o (sample_lines.take 20) {}
    let best := pyMaxFirst (v.jsonV, .json)
      [(v.logfmtV, .logfmt), (v.javaV + v.zkV, .java_structured), (v.syslogV, .syslog)]
    if best.1 > 0 then best.2 else .plain

/-! ### Basic chunker (`chunk_text`, `ingest.py`) -/

/-- The tail of a `re` match of `\s*\n` (greedy) at the head of `l`:
consume whitespace and return the remainder after the **last** newline
reachable through whitespace (backtracking prefers the deeper match),
or `none` when no newline is reachable. -/
def sepTail : List Char → Option (List Char)
  | [] => none
  | c :: rest =>
    if isWS c then
      match sepTail rest with
      | some r => some r
      | none => if c = '\n' then some rest else none
    else none

/-- `re.split(r"\n\s*\n", t)` with explicit fuel (one unit per consumed
character; `splitBlank` supplies enough).  A separator is a newline at
which `sepTail` finds a second newline through whitespace. -/
def splitBlankF : Nat → List Char → List (List Char)
  | _, [] => [[]]
  | 0, l => [l]
  | fuel + 1, c :: rest =>
    match (if c = '\n' then sepTail rest else none) with
    | some rest' => [] :: splitBlankF fuel rest'
    | none =>
      match splitBlankF fuel rest with
      | [] => [[c]]
      | b :: bs => (c :: b) :: bs

/-- `re.split(r"\n\s*\n", t)`. -/
def splitBlank (t : List Char) : List (List Char) := splitBlankF t.length t

/-- The window loop of `push_with_overlap`, entered with
`start = 0` on a stripped block `s` with `len(s) > max_chars`:
`end := min(start + max_chars, len(s))`; emit `s[start:end]`; stop when
`end = len(s)`, else continue from `start := max(0, end − overlap)`
(natural subtraction).  The source loop has no fuel; `none` models
non-termination within the given fuel (`overlap ≥ max_chars` never
advances, see `chunk_text_termination`). -/
def windowLoop (s : List Char) (maxc ov : Nat) : Nat → Nat → Option (List (List Char))
  | fuel, start =>
    let en := min (start + maxc) s.length
    let w := (s.drop start).take maxc
    if en = s.length then some [w]
    else
      match fuel with
      | 0 => none
      | f + 1 => (windowLoop s maxc ov f (en - ov)).map (w :: ·)

/-- `push_with_overlap(s)`: strip, skip empty, emit whole when within
`max_chars`, else slide the window. -/
def pushWithOverlap (maxc ov : Nat) (b : List Char) : Option (List (List Char)) :=
  let s := pyStrip b
  if s.isEmpty then some []
  else if s.length ≤ maxc then some [s]
  else windowLoop s maxc ov s.length 0

/-- `chunk_text(text, max_chars, overlap)`: split the stripped text on
blank-line boundaries and push each block. -/
def chunk_text (t : List Char) (maxc ov : Nat) : Option (List (List Char)) :=
  ((splitBlank (pyStrip t)).mapM (pushWithOverlap maxc ov)).map List.flatten

/-! ### Structured chunker (`smart_chunk_logs`) -/

/-- The running chunk metadata dict. -/
structure ChunkMeta where
  first_timestamp : PyVal := .PNone
  last_timestamp : PyVal := .PNone
  error_count : Nat := 0
  warn_count : Nat := 0
  log_format : List Char := []

/-- One emitted chunk: `{"text": …, "metadata": …}`; the fallback path
emits chunks with an empty metadata dict, modelled as `none`. -/
structure Chunk where
  text : List Char
  metadata : Option ChunkMeta

/-- The per-line metadata update (timestamp tracking and error/warning
counting) of the `smart_chunk_logs` loop. -/
def updateMeta (m : ChunkMeta) (p : ParsedLogLine) : ChunkMeta :=
  let m :=
    if pyTruthy p.timestamp then
      { m with
        first_timestamp :=
          if m.first_timestamp.isNone then p.timestamp else m.first_timestamp
        last_timestamp := p.timestamp }
    else m
  let lvl := pyUpper (pyOr p.level (.PStr []))
  if pyInStrs lvl ["ERROR".toList, "FATAL".toList, "CRITICAL".toList] then
    { m with error_count := m.error_count + 1 }
  else if pyInStrs lvl ["WARN".toList, "WARNING".toList] then
    { m with warn_count := m.warn_count + 1 }
  else m

/-- Reset of the accumulator after a flush (`log_format` preserved). -/
def resetMeta (m : ChunkMeta) : ChunkMeta :=
  { first_timestamp := .PNone, last_timestamp := .PNone,
    error_count := 0, warn_count := 0, log_format := m.log_format }

/-- The main loop of `smart_chunk_logs`: append each parsed line's `raw`
to the current chunk, update the metadata, and flush when the line count
reaches `max_lines` or the accumulated character count reaches
`max_chars`; a final non-empty accumulator is flushed at the end. -/
def chunkLoop (ml mc : Nat) (meta : ChunkMeta) (cur : List (List Char)) :
    List ParsedLogLine → List Chunk
  | [] => if cur.isEmpty then [] else [⟨joinNL cur, some meta⟩]
  | p :: ps =>
    let meta := updateMeta meta p
    let cur := cur ++ [p.raw]
    if cur.length ≥ ml || charSum cur ≥ mc then
      ⟨joinNL cur, some meta⟩ :: chunkLoop ml mc (resetMeta meta) [] ps
    else
      chunkLoop ml mc meta cur ps

/-- `smart_chunk_logs(text, max_lines, max_chars)`.  Detects the format
from the first 30 lines, parses the non-blank lines, and runs the
chunking loop; when no line is non-blank it falls back to
`chunk_text(text, max_chars)` (default overlap 150) with empty
metadata.  `none` models non-termination of the fallback (shown
unreachable in `smart_chunk_isSome`). -/
def smart_chunk_logs (o : Oracles) (text : List Char) (ml mc : Nat) :
    Option (List Chunk) :=
  let lines := splitlines text
  if lines.isEmpty then some []
  else
    let fmt := detect_format o (lines.take 30)
    let parsed := (lines.filter nonBlank).map (fun l => parse_line o l fmt)
    if parsed.isEmpty then
      (chunk_text text mc 150).map (List.map (fun c => ⟨c, none⟩))
    else
      some (chunkLoop ml mc { log_format := fmt.value } [] parsed)

/-! ### Per-chunk metadata (`detect_metadata`) -/

/-- The result dict of `detect_metadata`. -/
structure MetaOut where
  filename : List Char
  timestamp : Option (List Char)
  level : Option (List Char)
  error_count : Nat
  warn_count : Nat
deriving DecidableEq

/-- The error keywords of `detect_metadata`'s classification. -/
def errWords : List (List Char) :=
  ["ERROR".toList, "FATAL".toList, "CRITICAL".toList]

/-- The warning keywords of `detect_metadata`'s classification. -/
def warnWords : List (List Char) :=
  ["WARN".toList, "WARNING".toList]

/-- The per-line step of `detect_metadata`'s scan: strip, take the
first 19 characters when `TS_RE` matches at the start and no timestamp
was found yet, and classify the **first** `LEVEL_RE` match of the line
(at most one count per line). -/
def metaStep (st : Option (List Char) × Option (List Char) × Nat × Nat)
    (ln : List Char) : Option (List Char) × Option (List Char) × Nat × Nat :=
  let (ts, lvl, ec, wc) := st
  let s := pyStrip ln
  let ts := if ts.isNone && tsMatchAt s then some (s.take 19) else ts
  match levelSearch ingestLevelWords s with
  | some g =>
    let f := g.map Char.toUpper
    if errWords.contains f then
      (ts, (if lvl.isNone then some f else lvl), ec + 1, wc)
    else if warnWords.contains f then
      (ts, (if lvl.isNone then some f else lvl), ec, wc + 1)
    else (ts, lvl, ec, wc)
  | none => (ts, lvl, ec, wc)

/-- `detect_metadata(chunk, filename)`: scan only `lines[:20]`. -/
def detect_metadata (chunk filename : List Char) : MetaOut :=
  let st := ((splitlines chunk).take 20).foldl metaStep (none, none, 0, 0)
  { filename := filename, timestamp := st.1, level := st.2.1,
    error_count := st.2.2.1, warn_count := st.2.2.2 }

/-! ### String lemmas -/

theorem mem_lstrip {c : Char} {l : List Char} (h : c ∈ lstrip l) : c ∈ l :=
  (List.dropWhile_sublist _).subset h

theorem mem_rstrip {c : Char} {l : List Char} (h : c ∈ rstrip l) : c ∈ l := by
  unfold rstrip at h
  rw [List.mem_reverse] at h
  exact List.mem_reverse.mp ((List.dropWhile_sublist _).subset h)

theorem mem_pyStrip {c : Char} {l : List Char} (h : c ∈ pyStrip l) : c ∈ l :=
  mem_lstrip (mem_rstrip h)

theorem allWS_dropWhile_iff (p : Char → Bool) (l : List Char) :
    (∀ x ∈ l.dropWhile p, p x = true) ↔ ∀ x ∈ l, p x = true := by
  induction l with
  | nil => simp
  | cons c l ih =>
    by_cases hc : p c = true
    · rw [List.dropWhile_cons_of_pos hc]
      rw [ih]
      constructor
      · intro h x hx
        rcases List.mem_cons.mp hx with rfl | hx
        · exact hc
        · exact h x hx
      · intro h x hx
        exact h x (List.mem_cons_of_mem _ hx)
    · rw [List.dropWhile_cons_of_neg hc]

theorem pyStrip_eq_nil_iff (l : List Char) :
    pyStrip l = [] ↔ ∀ c ∈ l, isWS c = true := by
  unfold pyStrip rstrip lstrip
  rw [List.reverse_eq_nil_iff, List.dropWhile_eq_nil_iff]
  constructor
  · intro h c hc
    have h' : ∀ x ∈ List.dropWhile isWS l, isWS x = true := fun x hx =>
      h x (List.mem_reverse.mpr hx)
    exact (allWS_dropWhile_iff isWS l).mp h' c hc
  · intro h c hc
    exact h c (mem_lstrip (List.mem_reverse.mp hc))

theorem splitlines_no_newline {l : List Char} {t : List Char}
    (h : l ∈ splitlines t) : '\n' ∉ l := by
  induction t generalizing l with
  | nil => simp [splitlines] at h
  | cons c rest ih =>
    by_cases hc : c = '\n'
    · subst hc
      rw [splitlines, if_pos rfl] at h
      rcases List.mem_cons.mp h with rfl | h
      · simp
      · exact ih h
    · rw [splitlines, if_neg hc] at h
      rcases hrest : splitlines rest with - | ⟨l₀, ls⟩
      · rw [hrest] at h
        rcases List.mem_cons.mp h with rfl | h
        · simpa using fun he => hc he.symm
        · simp at h
      · rw [hrest] at h
        rcases List.mem_cons.mp h with rfl | h
        · have hl₀ : '\n' ∉ l₀ := ih (hrest ▸ List.mem_cons_self _ _)
          intro hmem
          rcases List.mem_cons.mp hmem with he | hmem
          · exact hc he.symm
          · exact hl₀ hmem
        · exact ih (hrest ▸ List.mem_cons_of_mem _ h)

theorem mem_of_mem_splitlines {c : Char} {t : List Char}
    (h : c ∈ t) : c = '\n' ∨ ∃ l ∈ splitlines t, c ∈ l := by
  induction t with
  | nil => simp at h
  | cons d rest ih =>
    by_cases hd : d = '\n'
    · subst hd
      rcases List.mem_cons.mp h with rfl | h
      · exact Or.inl rfl
      · rcases ih h with h | ⟨l, hl, hcl⟩
        · exact Or.inl h
        · refine Or.inr ⟨l, ?_, hcl⟩
          rw [splitlines, if_pos rfl]
          exact List.mem_cons_of_mem _ hl
    · rw [splitlines, if_neg hd]
      rcases hrest : splitlines rest with - | ⟨l₀, ls⟩
      · show c = '\n' ∨ ∃ l ∈ [[d]], c ∈ l
        rcases List.mem_cons.mp h with hcd | h
        · exact Or.inr ⟨[d], List.mem_cons_self _ _, by
            rw [hcd]; exact List.mem_cons_self _ _⟩
        · rcases ih h with h | ⟨l, hl, hcl⟩
          · exact Or.inl h
          · rw [hrest] at hl; simp at hl
      · show c = '\n' ∨ ∃ l ∈ (d :: l₀) :: ls, c ∈ l
        rcases List.mem_cons.mp h with hcd | h
        · exact Or.inr ⟨d :: l₀, List.mem_cons_self _ _, by
            rw [hcd]; exact List.mem_cons_self _ _⟩
        · rcases ih h with h | ⟨l, hl, hcl⟩
          · exact Or.inl h
          · rw [hrest] at hl
            rcases List.mem_cons.mp hl with rfl | hl
            · exact Or.inr ⟨d :: l, List.mem_cons_self _ _, List.mem_cons_of_mem _ hcl⟩
            · exact Or.inr ⟨l, List.mem_cons_of_mem _ hl, hcl⟩

theorem splitlines_append_newline {l t : List Char} (h : '\n' ∉ l) :
    splitlines (l ++ '\n' :: t) = l :: splitlines t := by
  induction l with
  | nil => simp [splitlines]
  | cons c l ih =>
    have hc : ¬ c = '\n' := fun he => h (he ▸ List.mem_cons_self _ _)
    have hl : '\n' ∉ l := fun hm => h (List.mem_cons_of_mem _ hm)
    rw [List.cons_append, splitlines, if_neg hc, ih hl]

theorem splitlines_no_nl {l : List Char} (h : '\n' ∉ l) (hne : l ≠ []) :
    splitlines l = [l] := by
  induction l with
  | nil => exact absurd rfl hne
  | cons c l ih =>
    have hc : ¬ c = '\n' := fun he => h (he ▸ List.mem_cons_self _ _)
    have hl : '\n' ∉ l := fun hm => h (List.mem_cons_of_mem _ hm)
    rw [splitlines, if_neg hc]
    cases l with
    | nil => rfl
    | cons d l' => rw [ih hl (List.cons_ne_nil _ _)]

theorem splitlines_joinNL {ls : List (List Char)}
    (h : ∀ l ∈ ls, l ≠ [] ∧ '\n' ∉ l) (hne : ls ≠ []) :
    splitlines (joinNL ls) = ls := by
  induction ls with
  | nil => exact absurd rfl hne
  | cons l ls ih =>
    rcases ls with - | ⟨l₂, ls'⟩
    · exact splitlines_no_nl (h l (List.mem_cons_self _ _)).2
        (h l (List.mem_cons_self _ _)).1
    · have hih := ih (fun x hx => h x (List.mem_cons_of_mem _ hx))
        (List.cons_ne_nil _ _)
      rw [joinNL, splitlines_append_newline (h l (List.mem_cons_self _ _)).2, hih]
      exact fun hh => (List.cons_ne_nil _ _) hh

/-! ### Parse and chunk-loop lemmas -/

/-- Every branch of every sub-parser stores the stripped line in `raw`. -/
theorem parse_line_raw (o : Oracles) (line : List Char) (fmt : LogFormat) :
    (parse_line o line fmt).raw = pyStrip line := by
  cases fmt <;>
    simp only [parse_line, parseJsonLine, parseLogfmtLine, parseJavaLine,
      parseSyslogLine, parsePlainLine] <;>
    (repeat' split) <;> rfl

/-- The flush condition of the structured chunker. -/
def boundHit (ml mc : Nat) (ls : List (List Char)) : Bool :=
  ls.length ≥ ml || charSum ls ≥ mc

theorem boundHit_false_iff (ml mc : Nat) (ls : List (List Char)) :
    boundHit ml mc ls = false ↔ ls.length < ml ∧ charSum ls < mc := by
  simp [boundHit, Nat.not_le]

theorem sum_take_le (l : List Nat) (n : Nat) : (l.take n).sum ≤ l.sum := by
  conv_rhs => rw [← List.take_append_drop n l]
  rw [List.sum_append]
  exact Nat.le_add_right _ _

theorem charSum_take_le (ls : List (List Char)) (n : Nat) :
    charSum (ls.take n) ≤ charSum ls := by
  unfold charSum
  rw [List.map_take]
  exact sum_take_le _ _

theorem boundHit_take_false {ml mc : Nat} {ls : List (List Char)} (n : Nat)
    (h : boundHit ml mc ls = false) : boundHit ml mc (ls.take n) = false := by
  rw [boundHit_false_iff] at h ⊢
  exact ⟨Nat.lt_of_le_of_lt (by rw [List.length_take]; exact Nat.min_le_right _ _) h.1,
    Nat.lt_of_le_of_lt (charSum_take_le ls n) h.2⟩

/-- The newline-split lines of all chunks, concatenated in order. -/
def chunksLines (cs : List Chunk) : List (List Char) :=
  (cs.map (fun c => splitlines c.text)).flatten

/-- A line acceptable inside a chunk: non-empty and newline-free. -/
def okLine (l : List Char) : Prop := l ≠ [] ∧ '\n' ∉ l

theorem chunkLoop_flat (ml mc : Nat) (ps : List ParsedLogLine) :
    ∀ cur meta, (∀ l ∈ cur, okLine l) → (∀ p ∈ ps, okLine p.raw) →
      chunksLines (chunkLoop ml mc meta cur ps) = cur ++ ps.map (·.raw) := by
  induction ps with
  | nil =>
    intro cur meta hcur _
    rcases hc : cur with - | ⟨l, cur'⟩
    · simp [chunkLoop, chunksLines]
    · subst hc
      rw [chunkLoop, if_neg (by simp)]
      rw [chunksLines]
      simp only [List.map_cons, List.map_nil, List.flatten_cons, List.flatten_nil]
      rw [splitlines_joinNL hcur (List.cons_ne_nil _ _)]
  | cons p ps ih =>
    intro cur meta hcur hps
    have hp : okLine p.raw := hps p (List.mem_cons_self _ _)
    have hps' : ∀ q ∈ ps, okLine q.raw := fun q hq => hps q (List.mem_cons_of_mem _ hq)
    have hcur' : ∀ l ∈ cur ++ [p.raw], okLine l := by
      intro l hl
      rcases List.mem_append.mp hl with hl | hl
      · exact hcur l hl
      · rcases List.mem_singleton.mp hl with rfl
        exact hp
    rw [chunkLoop]
    by_cases hb : (cur ++ [p.raw]).length ≥ ml || charSum (cur ++ [p.raw]) ≥ mc
    · rw [if_pos hb]
      rw [chunksLines]
      simp only [List.map_cons, List.flatten_cons]
      rw [← chunksLines,
        splitlines_joinNL hcur' (by simp),
        ih [] _ (by simp [okLine]) hps']
      simp
    · rw [if_neg hb, ih _ _ hcur' hps']
      simp

/-- "Every chunk except possibly the last was closed with a bound met",
read off the chunk list front to back. -/
def NonLastHit (ml mc : Nat) : List Chunk → Prop
  | [] => True
  | c :: rest => (rest = [] ∨ boundHit ml mc (splitlines c.text) = true) ∧
      NonLastHit ml mc rest

/-- A well-formed chunk for claim C2: non-empty, within the line bound,
and no proper prefix of its lines already met a bound (so it was closed
at the first line where a bound was reached, and the final chunk met no
bound at all). -/
def GoodChunk (ml mc : Nat) (c : Chunk) : Prop :=
  splitlines c.text ≠ [] ∧ (splitlines c.text).length ≤ ml ∧
    ∀ n < (splitlines c.text).length,
      boundHit ml mc ((splitlines c.text).take n) = false

theorem chunkLoop_good (ml mc : Nat) (hml : 1 ≤ ml) (hmc : 1 ≤ mc)
    (ps : List ParsedLogLine) :
    ∀ cur meta, (∀ l ∈ cur, okLine l) → (∀ p ∈ ps, okLine p.raw) →
      boundHit ml mc cur = false →
      (∀ c ∈ chunkLoop ml mc meta cur ps, GoodChunk ml mc c) ∧
        NonLastHit ml mc (chunkLoop ml mc meta cur ps) := by
  induction ps with
  | nil =>
    intro cur meta hcur _ hb
    rcases hc : cur with - | ⟨l, cur'⟩
    · subst hc
      simp [chunkLoop, NonLastHit]
    · subst hc
      rw [chunkLoop, if_neg (by simp)]
      have hsl : splitlines (joinNL (l :: cur')) = l :: cur' :=
        splitlines_joinNL hcur (List.cons_ne_nil _ _)
      constructor
      · intro c hc
        rcases List.mem_singleton.mp hc with rfl
        refine ⟨by rw [hsl]; exact List.cons_ne_nil _ _, ?_, ?_⟩
        · rw [hsl]
          exact Nat.le_of_lt ((boundHit_false_iff ml mc _).mp hb).1
        · intro n _
          rw [hsl]
          exact boundHit_take_false n hb
      · exact ⟨Or.inl rfl, trivial⟩
  | cons p ps ih =>
    intro cur meta hcur hps hb
    have hp : okLine p.raw := hps p (List.mem_cons_self _ _)
    have hps' : ∀ q ∈ ps, okLine q.raw := fun q hq => hps q (List.mem_cons_of_mem _ hq)
    have hcur' : ∀ l ∈ cur ++ [p.raw], okLine l := by
      intro l hl
      rcases List.mem_append.mp hl with hl | hl
      · exact hcur l hl
      · rcases List.mem_singleton.mp hl with rfl
        exact hp
    have hsl : splitlines (joinNL (cur ++ [p.raw])) = cur ++ [p.raw] :=
      splitlines_joinNL hcur' (by simp)
    rw [chunkLoop]
    by_cases hbb : (cur ++ [p.raw]).length ≥ ml || charSum (cur ++ [p.raw]) ≥ mc
    · rw [if_pos hbb]
      have hrest := ih [] (resetMeta (updateMeta meta p)) (by simp [okLine]) hps'
        (by rw [boundHit_false_iff]; constructor <;> simp [charSum] <;> omega)
      constructor
      · intro c hc
        rcases List.mem_cons.mp hc with rfl | hc
        · refine ⟨by rw [hsl]; simp, ?_, ?_⟩
          · rw [hsl]
            have := ((boundHit_false_iff ml mc cur).mp hb).1
            simp only [List.length_append, List.length_cons, List.length_nil]
            omega
          · intro n hn
            rw [hsl] at hn ⊢
            have hn' : n ≤ cur.length := by
              simp only [List.length_append, List.length_cons, List.length_nil] at hn
              omega
            rw [List.take_append_of_le_length hn']
            exact boundHit_take_false n hb
        · exact hrest.1 c hc
      · refine ⟨?_, hrest.2⟩
        right
        rw [hsl]
        simpa [boundHit] using hbb
    · rw [if_neg hbb]
      exact ih _ (updateMeta meta p) hcur' hps'
        (by simpa [boundHit] using hbb)

/-! ### smart_chunk_logs branch lemmas -/

theorem nonBlank_false_iff (l : List Char) : nonBlank l = false ↔ pyStrip l = [] := by
  simp [nonBlank]

theorem parsed_raw_ok (o : Oracles) (fmt : LogFormat) {text l : List Char}
    (hl : l ∈ (splitlines text).filter nonBlank) :
    okLine (parse_line o l fmt).raw := by
  rw [parse_line_raw]
  obtain ⟨hmem, hnb⟩ := List.mem_filter.mp hl
  exact ⟨by simpa [nonBlank] using hnb,
    fun hin => splitlines_no_newline hmem (mem_pyStrip hin)⟩

theorem strip_nil_of_all_blank {t : List Char}
    (h : ∀ l ∈ splitlines t, nonBlank l = false) : pyStrip t = [] := by
  rw [pyStrip_eq_nil_iff]
  intro c hc
  rcases mem_of_mem_splitlines hc with rfl | ⟨l, hl, hcl⟩
  · decide
  · have hb := (nonBlank_false_iff l).mp (h l hl)
    exact (pyStrip_eq_nil_iff l).mp hb c hcl

theorem chunk_text_strip_nil {t : List Char} (h : pyStrip t = [])
    (mc ov : Nat) : chunk_text t mc ov = some [] := by
  unfold chunk_text
  rw [h]
  rfl

/-! ### Claim C1 -/

/-- **C1** (amended): the structured chunker partitions the non-blank
input lines modulo stripping — concatenating, in order, the
newline-split lines of every emitted chunk's text yields exactly the
sequence of non-blank input lines **each stripped of surrounding
whitespace**, in original order, none dropped, none duplicated. -/
theorem smart_chunk_partition (o : Oracles) (text : List Char) (ml mc : Nat)
    {cs : List Chunk} (h : smart_chunk_logs o text ml mc = some cs) :
    chunksLines cs = ((splitlines text).filter nonBlank).map pyStrip := by
  simp only [smart_chunk_logs] at h
  split at h
  · rename_i h0
    obtain rfl : cs = [] := (Option.some_inj.mp h).symm
    rw [List.isEmpty_eq_true] at h0
    rw [h0]
    simp [chunksLines]
  · split at h
    · rename_i h0 hpe
      rw [List.isEmpty_eq_true, List.map_eq_nil_iff] at hpe
      have hall : ∀ l ∈ splitlines text, nonBlank l = false := by
        intro l hl
        by_contra hnb
        have : l ∈ (splitlines text).filter nonBlank :=
          List.mem_filter.mpr ⟨hl, by revert hnb; cases nonBlank l <;> simp⟩
        rw [hpe] at this
        simp at this
      rw [chunk_text_strip_nil (strip_nil_of_all_blank hall)] at h
      simp only [Option.map_some'] at h
      obtain rfl : cs = [] := (Option.some_inj.mp h).symm
      rw [List.filter_eq_nil_iff.mpr (by intro a ha; simp [hall a ha])]
      simp [chunksLines]
    · rename_i h0 hpe
      obtain rfl := (Option.some_inj.mp h).symm
      rw [chunkLoop_flat _ _ _ [] _ (by simp)
        (fun p hp => by
          obtain ⟨l, hl, rfl⟩ := List.mem_map.mp hp
          exact parsed_raw_ok o _ hl)]
      rw [List.nil_append, List.map_map]
      exact List.map_congr_left fun l hl => parse_line_raw o l _

/-- Witness for C1 at a concrete input. -/
def c1cs : List Chunk :=
  [⟨"a\nb".toList, some { log_format := "plain".toList }⟩]

theorem smart_chunk_partition_witness :
    smart_chunk_logs oracle0 " a\nb".toList 50 2000 = some c1cs ∧
      chunksLines c1cs =
        ((splitlines " a\nb".toList).filter nonBlank).map pyStrip :=
  ⟨rfl, smart_chunk_partition oracle0 " a\nb".toList 50 2000 rfl⟩

/-- **C1, counterexample to the claim as stated**: on input `" a\nb"`
the chunk lines are the stripped lines, not the original non-blank
input lines (`"a" ≠ " a"`). -/
theorem smart_chunk_partition_ce :
    (smart_chunk_logs oracle0 " a\nb".toList 50 2000).map chunksLines ≠
      some ((splitlines " a\nb".toList).filter nonBlank) := by
  decide

/-! ### Claim C2 -/

/-- **C2**: for `max_lines ≥ 1` and `max_chars ≥ 1`, every emitted chunk
is non-empty, has line count ≤ `max_lines`, no proper prefix of its
lines already met a bound (so it was closed immediately after the first
line at which a bound was reached, and never re-opened), and every
chunk but the last met a bound when closed. -/
theorem smart_chunk_bounds (o : Oracles) (text : List Char) (ml mc : Nat)
    (hml : 1 ≤ ml) (hmc : 1 ≤ mc) {cs : List Chunk}
    (h : smart_chunk_logs o text ml mc = some cs) :
    (∀ c ∈ cs, GoodChunk ml mc c) ∧ NonLastHit ml mc cs := by
  simp only [smart_chunk_logs] at h
  split at h
  · obtain rfl : cs = [] := (Option.some_inj.mp h).symm
    exact ⟨by simp, trivial⟩
  · split at h
    · rename_i h0 hpe
      rw [List.isEmpty_eq_true, List.map_eq_nil_iff] at hpe
      have hall : ∀ l ∈ splitlines text, nonBlank l = false := by
        intro l hl
        by_contra hnb
        have : l ∈ (splitlines text).filter nonBlank :=
          List.mem_filter.mpr ⟨hl, by revert hnb; cases nonBlank l <;> simp⟩
        rw [hpe] at this
        simp at this
      rw [chunk_text_strip_nil (strip_nil_of_all_blank hall)] at h
      simp only [Option.map_some'] at h
      obtain rfl : cs = [] := (Option.some_inj.mp h).symm
      exact ⟨by simp, trivial⟩
    · obtain rfl := (Option.some_inj.mp h).symm
      exact chunkLoop_good ml mc hml hmc _ [] _ (by simp)
        (fun p hp => by
          obtain ⟨l, hl, rfl⟩ := List.mem_map.mp hp
          exact parsed_raw_ok o _ hl)
        ((boundHit_false_iff ml mc []).mpr (by simp [charSum]; omega))

/-- Witness for C2: `max_lines = 2` forces a flush after two lines. -/
def c2cs : List Chunk :=
  [⟨"x\ny".toList, some { log_format := "plain".toList }⟩,
   ⟨"z".toList, some { log_format := "plain".toList }⟩]

theorem smart_chunk_bounds_witness :
    smart_chunk_logs oracle0 "x\ny\nz".toList 2 100 = some c2cs ∧
      ((∀ c ∈ c2cs, GoodChunk 2 100 c) ∧ NonLastHit 2 100 c2cs) :=
  ⟨rfl, smart_chunk_bounds oracle0 "x\ny\nz".toList 2 100 (by decide) (by decide) rfl⟩

/-! ### Claim C8 -/

/-- **C8**: `parse_line` stores the stripped input line in `raw` for
every format, and the PLAIN parser's `message` is that same stripped
line, so the structured chunker's chunk texts consist of stripped
lines. -/
theorem parse_line_strips (o : Oracles) (line : List Char) (fmt : LogFormat) :
    (parse_line o line fmt).raw = pyStrip line ∧
      (parse_line o line .plain).message = .PStr (pyStrip line) :=
  ⟨parse_line_raw o line fmt, rfl⟩

/-! ### Claims C3 and C4: detect_format -/

/-- Modelled from the spec's words for the selection step: "pick the
format with the highest vote count; ties resolve to the first format in
evaluation order JSON, LOGFMT, JAVA_STRUCTURED, SYSLOG.  If every
counter is zero, return PLAIN."  (`ja` is the shared
ZooKeeper-plus-Java counter.) -/
def specSelect (j l ja s : Nat) : LogFormat :=
  if j = 0 ∧ l = 0 ∧ ja = 0 ∧ s = 0 then .plain
  else if j ≥ l ∧ j ≥ ja ∧ j ≥ s then .json
  else if l ≥ ja ∧ l ≥ s then .logfmt
  else if ja ≥ s then .java_structured
  else .syslog

theorem pyMaxFirst_select (j l ja s : Nat) :
    (let best := pyMaxFirst (j, LogFormat.json)
      [(l, .logfmt), (ja, .java_structured), (s, .syslog)]
     if best.1 > 0 then best.2 else .plain) = specSelect j l ja s := by
  simp only [pyMaxFirst, specSelect]
  split_ifs <;> simp_all <;> omega

/-- **C3**: `detect_format` returns the format with the highest vote
counter, the ZooKeeper and generic-Java matches feeding one shared
JAVA_STRUCTURED counter; ties resolve to the earlier format in the
order JSON, LOGFMT, JAVA_STRUCTURED, SYSLOG, and all-zero counters give
PLAIN. -/
theorem detect_format_spec (o : Oracles) (sample : List (List Char)) :
    detect_format o sample =
      specSelect (voteLoop o (sample.take 20) {}).jsonV
        (voteLoop o (sample.take 20) {}).logfmtV
        ((voteLoop o (sample.take 20) {}).javaV + (voteLoop o (sample.take 20) {}).zkV)
        (voteLoop o (sample.take 20) {}).syslogV := by
  simp only [detect_format]
  by_cases h0 : sample.isEmpty
  · rw [if_pos h0]
    rw [List.isEmpty_eq_true] at h0
    subst h0
    rfl
  · rw [if_neg h0]
    exact pyMaxFirst_select _ _ _ _

/-- Total number of votes cast. -/
def votesTotal (v : Votes) : Nat := v.jsonV + v.logfmtV + v.javaV + v.zkV + v.syslogV

theorem bumpVotes_total (o : Oracles) (v : Votes) (s : List Char) :
    votesTotal (bumpVotes o v s) ≤ votesTotal v + 1 := by
  unfold bumpVotes
  split_ifs <;> simp [votesTotal] <;> omega

theorem voteLoop_total (o : Oracles) :
    ∀ (ls : List (List Char)) (v : Votes),
      votesTotal (voteLoop o ls v) ≤ votesTotal v + ls.countP nonBlank := by
  intro ls
  induction ls with
  | nil => intro v; simp [voteLoop]
  | cons l ls ih =>
    intro v
    rw [voteLoop]
    by_cases hb : (pyStrip l).isEmpty
    · rw [if_pos hb]
      have hcnt : (l :: ls).countP nonBlank = ls.countP nonBlank := by
        rw [List.countP_cons]
        have : nonBlank l = false := by
          rw [nonBlank_false_iff, ← List.isEmpty_eq_true]
          exact hb
        simp [this]
      rw [hcnt]
      exact ih v
    · rw [if_neg hb]
      have hcnt : (l :: ls).countP nonBlank = ls.countP nonBlank + 1 := by
        rw [List.countP_cons]
        have : nonBlank l = true := by
          simp only [nonBlank, List.isEmpty_eq_true] at hb ⊢
          simpa using hb
        simp [this]
      rw [hcnt]
      calc votesTotal (voteLoop o ls (bumpVotes o v (pyStrip l))) ≤
          votesTotal (bumpVotes o v (pyStrip l)) + ls.countP nonBlank := ih _
        _ ≤ votesTotal v + 1 + ls.countP nonBlank :=
          Nat.add_le_add_right (bumpVotes_total o v _) _
        _ = votesTotal v + (ls.countP nonBlank + 1) := by omega

/-- **C4** (amended): `detect_format` bases its votes on the first
**20 entries of the sample it is given** — blank entries count toward
the 20 but cast no vote, each non-blank entry among the first 20 votes
for at most one format, and entries beyond the 20th have no effect; in
particular the 30-line sample passed by `smart_chunk_logs` is
effectively cut to the first 20 lines of the file. -/
theorem detect_format_window (o : Oracles) (sample : List (List Char))
    (t : List Char) :
    detect_format o sample = detect_format o (sample.take 20) ∧
      votesTotal (voteLoop o (sample.take 20) {}) ≤ (sample.take 20).countP nonBlank ∧
      detect_format o ((splitlines t).take 30) =
        detect_format o ((splitlines t).take 20) := by
  have hwin : ∀ s : List (List Char), detect_format o s = detect_format o (s.take 20) := by
    intro s
    simp only [detect_format]
    have htt : (s.take 20).take 20 = s.take 20 := by
      rw [List.take_take]
      norm_num
    have hie : s.isEmpty = (s.take 20).isEmpty := by
      cases s <;> simp
    rw [htt, ← hie]
  refine ⟨hwin sample, ?_, ?_⟩
  · have := voteLoop_total o (sample.take 20) {}
    simpa [votesTotal] using this
  · rw [hwin ((splitlines t).take 30)]
    rw [List.take_take]
    norm_num

/-- A concrete oracle under which `"{}"` is valid JSON. -/
def oJson : Oracles :=
  { oracle0 with
    loads := fun l =>
      if l = [Char.ofNat 123, Char.ofNat 125] then some (.PDict []) else none }

/-- 20 blank lines followed by one JSON line. -/
def c4sample : List (List Char) :=
  List.replicate 20 [' '] ++ [[Char.ofNat 123, Char.ofNat 125]]

/-- **C4, counterexample to the claim as stated**: the JSON line is the
*first* non-empty line of the sample, yet it casts no vote because it
sits beyond the 20th raw line, so `detect_format` does **not** base its
votes on the first 30 non-empty lines. -/
theorem detect_format_window_ce :
    detect_format oJson c4sample ≠
      detect_format oJson ((c4sample.filter nonBlank).take 30) := by
  decide

/-! ### Claim C7: detect_metadata -/

/-- The uppercased first `LEVEL_RE` match of a line, if any. -/
def lineLevelClass (ln : List Char) : Option (List Char) :=
  (levelSearch ingestLevelWords (pyStrip ln)).map (List.map Char.toUpper)

/-- The line's first level match is an error keyword. -/
def isErrLine (ln : List Char) : Bool :=
  match lineLevelClass ln with
  | some f => errWords.contains f
  | none => false

/-- The line's first level match is a warning keyword. -/
def isWarnLine (ln : List Char) : Bool :=
  match lineLevelClass ln with
  | some f => !errWords.contains f && warnWords.contains f
  | none => false

theorem metaFold_counts :
    ∀ (lns : List (List Char)) ts lvl (ec wc : Nat),
      (lns.foldl metaStep (ts, lvl, ec, wc)).2.2.1 = ec + lns.countP isErrLine ∧
      (lns.foldl metaStep (ts, lvl, ec, wc)).2.2.2 = wc + lns.countP isWarnLine := by
  intro lns
  induction lns with
  | nil => intro ts lvl ec wc; simp
  | cons ln lns ih =>
    intro ts lvl ec wc
    have hc : (metaStep (ts, lvl, ec, wc) ln).2.2.1 =
          ec + (if isErrLine ln then 1 else 0) ∧
        (metaStep (ts, lvl, ec, wc) ln).2.2.2 =
          wc + (if isWarnLine ln then 1 else 0) := by
      rcases hls : levelSearch ingestLevelWords (pyStrip ln) with - | g
      · simp [metaStep, isErrLine, isWarnLine, lineLevelClass, hls]
      · by_cases he : (g.map Char.toUpper) ∈ errWords
        · simp [metaStep, isErrLine, isWarnLine, lineLevelClass, hls, he]
        · by_cases hw : (g.map Char.toUpper) ∈ warnWords
          · simp [metaStep, isErrLine, isWarnLine, lineLevelClass, hls, he, hw]
          · simp [metaStep, isErrLine, isWarnLine, lineLevelClass, hls, he, hw]
    have hfold :
        (ln :: lns).foldl metaStep (ts, lvl, ec, wc) =
          lns.foldl metaStep ((metaStep (ts, lvl, ec, wc) ln).1,
            (metaStep (ts, lvl, ec, wc) ln).2.1,
            (metaStep (ts, lvl, ec, wc) ln).2.2.1,
            (metaStep (ts, lvl, ec, wc) ln).2.2.2) := rfl
    rw [hfold]
    obtain ⟨h1, h2⟩ := ih (metaStep (ts, lvl, ec, wc) ln).1
      (metaStep (ts, lvl, ec, wc) ln).2.1
      (metaStep (ts, lvl, ec, wc) ln).2.2.1
      (metaStep (ts, lvl, ec, wc) ln).2.2.2
    rw [h1, h2, hc.1, hc.2, List.countP_cons, List.countP_cons]
    constructor <;> by_cases hE : isErrLine ln <;> by_cases hW : isWarnLine ln <;>
      simp [hE, hW] <;> omega

/-- **C7** (amended): `detect_metadata` examines only the first 20
lines of the chunk, and its `error_count` (resp. `warn_count`) is the
number of those lines whose **first** level match is an error (resp.
warning) keyword — at most one count per line, decided by the first
match, not every occurrence. -/
theorem detect_metadata_window (c₁ c₂ fn : List Char)
    (h : (splitlines c₁).take 20 = (splitlines c₂).take 20) :
    detect_metadata c₁ fn = detect_metadata c₂ fn ∧
      (detect_metadata c₁ fn).error_count =
        ((splitlines c₁).take 20).countP isErrLine ∧
      (detect_metadata c₁ fn).warn_count =
        ((splitlines c₁).take 20).countP isWarnLine := by
  refine ⟨?_, ?_, ?_⟩
  · simp only [detect_metadata]
    rw [h]
  · simp only [detect_metadata]
    simpa using (metaFold_counts ((splitlines c₁).take 20) none none 0 0).1
  · simp only [detect_metadata]
    simpa using (metaFold_counts ((splitlines c₁).take 20) none none 0 0).2

def c7text1 : List Char := joinNL (List.replicate 20 ['a'] ++ [['b']])

def c7text2 : List Char := joinNL (List.replicate 20 ['a'] ++ ["ERROR".toList])

/-- Witness for C7: two chunks agreeing on their first 20 lines (one
ends in a 21st `ERROR` line) get identical metadata. -/
theorem detect_metadata_window_witness :
    (splitlines c7text1).take 20 = (splitlines c7text2).take 20 ∧
      (detect_metadata c7text1 "f".toList = detect_metadata c7text2 "f".toList ∧
        (detect_metadata c7text1 "f".toList).error_count =
          ((splitlines c7text1).take 20).countP isErrLine ∧
        (detect_metadata c7text1 "f".toList).warn_count =
          ((splitlines c7text1).take 20).countP isWarnLine) :=
  ⟨by decide, detect_metadata_window c7text1 c7text2 "f".toList (by decide)⟩

/-- All level-keyword occurrences of a line: every position (scanned
with word boundaries) where an alternative matches, uppercased. -/
def levelOccsAux (ws : List (List Char)) (prev : Option Char) :
    List Char → List (List Char)
  | [] => []
  | l@(c :: rest) =>
    let okBefore := match prev with
      | none => true
      | some p => !isWordChar p
    match (if okBefore then tryWords ws l else none) with
    | some g => (g.map Char.toUpper) :: levelOccsAux ws (some c) rest
    | none => levelOccsAux ws (some c) rest

/-- Modelled from the spec's words: "counting every level keyword
occurrence in that window" — the total number of error-keyword
occurrences in the first 20 (stripped) lines. -/
def specErrCount (chunk : List Char) : Nat :=
  (((splitlines chunk).take 20).map (fun ln =>
    ((levelOccsAux ingestLevelWords none (pyStrip ln)).filter
      (fun g => errWords.contains g)).length)).sum

/-- **C7, counterexample to the claim as stated**: the line
`"ERROR ERROR"` contains two ERROR occurrences but `detect_metadata`
counts only one (one count per line, from the first match). -/
theorem detect_metadata_ce :
    (detect_metadata "ERROR ERROR".toList "f".toList).error_count = 1 ∧
      specErrCount "ERROR ERROR".toList = 2 ∧
      (detect_metadata "ERROR ERROR".toList "f".toList).error_count ≠
        specErrCount "ERROR ERROR".toList := by
  decide

/-! ### Claim C6: JSON parse failure degrades gracefully -/

/-- The loaded value is unusable: `json.loads` raised, or it returned a
non-dict (on which the first `data.get` raises `AttributeError`). -/
def loadsNotDict : Option PyVal → Bool
  | some (.PDict _) => false
  | _ => true

/-- **C6**: when the line does not parse as a JSON object, `parse_line`
with the JSON format returns a `ParsedLogLine` whose `message` equals
the raw line and whose timestamp, level, logger, thread and extra are
all unset (the embedding is total, so no call raises). -/
theorem parse_json_failure (o : Oracles) (line : List Char)
    (h : loadsNotDict (o.loads (pyStrip line)) = true) :
    parse_line o line .json =
      { raw := pyStrip line, message := .PStr (pyStrip line) } := by
  have hj : parse_line o line .json = parseJsonLine o (pyStrip line) := rfl
  rw [hj]
  unfold parseJsonLine
  split
  · rename_i d hd
    rw [hd] at h
    simp [loadsNotDict] at h
  · rfl

theorem parse_json_failure_witness :
    loadsNotDict (oracle0.loads (pyStrip "notjson".toList)) = true ∧
      parse_line oracle0 "notjson".toList .json =
        { raw := pyStrip "notjson".toList,
          message := .PStr (pyStrip "notjson".toList) } :=
  ⟨rfl, parse_json_failure oracle0 "notjson".toList rfl⟩

/-! ### Claim C10: falsy synonym values -/

/-- The first truthy lookup among the synonym keys, or — when every
synonym's lookup is falsy — the **last** synonym's lookup result
(`PNone` when that key is absent, the falsy value itself when present). -/
def chainSpec (d : List (List Char × PyVal)) (ks : List (List Char)) : PyVal :=
  match (ks.map (dGet d)).find? pyTruthy with
  | some v => v
  | none => dGet d (ks.getLastD [])

theorem getChain_eq_chainSpec (d : List (List Char × PyVal)) :
    ∀ ks, ks ≠ [] → getChain d ks = chainSpec d ks := by
  intro ks
  induction ks with
  | nil => intro h; exact absurd rfl h
  | cons k ks ih =>
    intro _
    rcases ks with - | ⟨k₂, ks'⟩
    · by_cases hk : pyTruthy (dGet d k)
      · simp [getChain, chainSpec, hk]
      · simp only [Bool.not_eq_true] at hk
        simp [getChain, chainSpec, hk]
    · by_cases hk : pyTruthy (dGet d k)
      · simp [getChain, chainSpec, pyOr, hk]
      · simp only [Bool.not_eq_true] at hk
        rw [getChain, pyOr, if_neg (by rw [hk]; exact Bool.false_ne_true),
          ih (List.cons_ne_nil _ _)]
        · simp [chainSpec, hk]
        · exact fun hh => (List.cons_ne_nil _ _) hh

/-- The string-dict analogue for the logfmt parser. -/
def fChainSpec (d : List (List Char × List Char)) (ks : List (List Char)) : PyVal :=
  match (ks.map (fGet d)).find? pyTruthy with
  | some v => v
  | none => fGet d (ks.getLastD [])

theorem fChain_eq_fChainSpec (d : List (List Char × List Char)) :
    ∀ ks, ks ≠ [] → fChain d ks = fChainSpec d ks := by
  intro ks
  induction ks with
  | nil => intro h; exact absurd rfl h
  | cons k ks ih =>
    intro _
    rcases ks with - | ⟨k₂, ks'⟩
    · by_cases hk : pyTruthy (fGet d k)
      · simp [fChain, fChainSpec, hk]
      · simp only [Bool.not_eq_true] at hk
        simp [fChain, fChainSpec, hk]
    · by_cases hk : pyTruthy (fGet d k)
      · simp [fChain, fChainSpec, pyOr, hk]
      · simp only [Bool.not_eq_true] at hk
        rw [fChain, pyOr, if_neg (by rw [hk]; exact Bool.false_ne_true),
          ih (List.cons_ne_nil _ _)]
        · simp [fChainSpec, hk]
        · exact fun hh => (List.cons_ne_nil _ _) hh

/-- The logfmt fields dict built by `_parse_logfmt_line`. -/
def logfmtFields (o : Oracles) (line : List Char) : List (List Char × List Char) :=
  (o.logfmtFindall line).foldl
    (fun d kv => dictSet d (kv.1.map Char.toLower) kv.2) []

/-- **C10** (amended): in JSON and logfmt parsing a falsy synonym value
is skipped — each named field gets the first truthy synonym lookup; when
no synonym is truthy the field receives the **last** synonym's lookup
result (`None` if absent, otherwise that falsy value itself, so the
field is not always left unset) — and every synonym key is excluded
from `extra` by the fixed known-key list, independently of which key
supplied the field. -/
theorem falsy_synonym_skip (o : Oracles) (line : List Char)
    (d : List (List Char × PyVal))
    (h : o.loads (pyStrip line) = some (.PDict d)) :
    ((parse_line o line .json).timestamp =
        chainSpec d ["timestamp".toList, "time".toList, "@timestamp".toList, "ts".toList] ∧
      (parse_line o line .json).level =
        chainSpec d ["level".toList, "severity".toList, "log_level".toList] ∧
      (parse_line o line .json).message =
        chainSpec d ["message".toList, "msg".toList, "log".toList] ∧
      (parse_line o line .json).logger =
        chainSpec d ["logger".toList, "name".toList, "source".toList] ∧
      (parse_line o line .json).thread =
        chainSpec d ["thread".toList, "thread_name".toList] ∧
      ∀ e, (parse_line o line .json).extra = some e →
        ∀ kv ∈ e, ¬ jsonKnownKeys.contains kv.1) ∧
    ((parse_line o line .logfmt).timestamp =
        fChainSpec (logfmtFields o (pyStrip line))
          ["time".toList, "timestamp".toList, "ts".toList] ∧
      (parse_line o line .logfmt).level =
        fChainSpec (logfmtFields o (pyStrip line))
          ["level".toList, "lvl".toList, "severity".toList] ∧
      (parse_line o line .logfmt).message =
        fChainSpec (logfmtFields o (pyStrip line))
          ["msg".toList, "message".toList] ∧
      (parse_line o line .logfmt).logger =
        fChainSpec (logfmtFields o (pyStrip line))
          ["logger".toList, "component".toList, "caller".toList] ∧
      ∀ e, (parse_line o line .logfmt).extra = some e →
        ∀ kv ∈ e, ¬ logfmtKnownKeys.contains kv.1) := by
  have hj : parse_line o line .json = parseJsonLine o (pyStrip line) := rfl
  have hl : parse_line o line .logfmt = parseLogfmtLine o (pyStrip line) := rfl
  constructor
  · rw [hj]
    unfold parseJsonLine
    rw [h]
    refine ⟨?_, ?_, ?_, ?_, ?_, ?_⟩
    · exact getChain_eq_chainSpec d _ (by simp)
    · exact getChain_eq_chainSpec d _ (by simp)
    · exact getChain_eq_chainSpec d _ (by simp)
    · exact getChain_eq_chainSpec d _ (by simp)
    · exact getChain_eq_chainSpec d _ (by simp)
    · intro e he kv hkv
      obtain rfl : e = d.filter (fun kv => !jsonKnownKeys.contains kv.1) :=
        (Option.some_inj.mp he).symm
      have := (List.mem_filter.mp hkv).2
      simpa using this
  · rw [hl]
    unfold parseLogfmtLine
    refine ⟨?_, ?_, ?_, ?_, ?_⟩
    · exact fChain_eq_fChainSpec _ _ (by simp)
    · exact fChain_eq_fChainSpec _ _ (by simp)
    · exact fChain_eq_fChainSpec _ _ (by simp)
    · exact fChain_eq_fChainSpec _ _ (by simp)
    · intro e he kv hkv
      obtain rfl := (Option.some_inj.mp he).symm
      obtain ⟨kv', hkv', rfl⟩ := List.mem_map.mp hkv
      have := (List.mem_filter.mp hkv').2
      simpa using this

/-- An oracle whose JSON dict carries only `"ts": false` — present but
falsy. -/
def oFalsy : Oracles :=
  { oracle0 with
    loads := fun _ => some (.PDict [("ts".toList, .PBool false)]) }

/-- Witness for C10. -/
theorem falsy_synonym_skip_witness :
    oFalsy.loads (pyStrip "x".toList) =
        some (.PDict [("ts".toList, .PBool false)]) ∧
      (parse_line oFalsy "x".toList .json).timestamp =
        chainSpec [("ts".toList, .PBool false)]
          ["timestamp".toList, "time".toList, "@timestamp".toList, "ts".toList] :=
  ⟨rfl, (falsy_synonym_skip oFalsy "x".toList
    [("ts".toList, .PBool false)] rfl).1.1⟩

/-- **C10, counterexample to the claim as stated**: with `{"ts": false}`
every timestamp synonym is falsy, yet the field is **not** left unset —
it receives the value `False` from the last synonym's lookup. -/
theorem falsy_synonym_skip_ce :
    (parse_line oFalsy "x".toList .json).timestamp = .PBool false ∧
      (parse_line oFalsy "x".toList .json).timestamp ≠ .PNone :=
  ⟨rfl, fun hcontra => by rw [show (parse_line oFalsy "x".toList .json).timestamp
    = PyVal.PBool false from rfl] at hcontra; exact PyVal.noConfusion hcontra⟩

/-! ### Claims C5 and C9: the basic chunker's window loop -/

/-- Reconstruction of a block from overlapping windows: the first
window, then each later window with its first `overlap` characters
(the shared context) removed. -/
def concatOverlap (ov : Nat) (ws : List (List Char)) : List Char :=
  match ws with
  | [] => []
  | w :: rest => w ++ (rest.map (fun x => x.drop ov)).flatten

/-- The window-shape invariant: every window except the last has length
exactly `max_chars`; the last has length ≤ `max_chars` and > `overlap`;
each window's last `overlap` characters equal the next window's first
`overlap` characters (they share exactly `overlap` characters). -/
def winChain (mc ov : Nat) : List (List Char) → Prop
  | [] => True
  | [w] => w.length ≤ mc ∧ ov < w.length
  | w :: w' :: rest => w.length = mc ∧ w.drop (mc - ov) = w'.take ov ∧
      winChain mc ov (w' :: rest)

theorem winSingle (s : List Char) (mc ov start : Nat) (_hov : ov < mc)
    (hlt : start + ov < s.length) (h1 : s.length ≤ start + mc) :
    ((s.drop start).take mc).length ≤ mc ∧
      ov < ((s.drop start).take mc).length ∧
      (s.drop start).take mc = s.drop start := by
  have hlen : (s.drop start).length = s.length - start := List.length_drop ..
  have hle : (s.drop start).length ≤ mc := by rw [hlen]; omega
  refine ⟨?_, ?_, List.take_of_length_le hle⟩
  · rw [List.length_take]
    exact Nat.min_le_left _ _
  · rw [List.take_of_length_le hle, hlen]
    omega

theorem windowLoop_spec (s : List Char) (mc ov : Nat) (hov : ov < mc) :
    ∀ fuel start ws, start + ov < s.length →
      windowLoop s mc ov fuel start = some ws →
      ws ≠ [] ∧ ws.head? = some ((s.drop start).take mc) ∧
        winChain mc ov ws ∧ concatOverlap ov ws = s.drop start := by
  intro fuel
  induction fuel with
  | zero =>
    intro start ws hlt hw
    simp only [windowLoop] at hw
    by_cases h1 : min (start + mc) s.length = s.length
    · rw [if_pos h1] at hw
      obtain rfl : [(s.drop start).take mc] = ws := Option.some_inj.mp hw
      obtain ⟨ha, hb, hc⟩ := winSingle s mc ov start hov hlt (by omega)
      exact ⟨List.cons_ne_nil _ _, rfl, ⟨ha, hb⟩, by
        simp only [concatOverlap, List.map_nil, List.flatten_nil, List.append_nil]
        exact hc⟩
    · rw [if_neg h1] at hw
      exact absurd hw (by simp)
  | succ f ih =>
    intro start ws hlt hw
    simp only [windowLoop] at hw
    by_cases h1 : min (start + mc) s.length = s.length
    · rw [if_pos h1] at hw
      obtain rfl : [(s.drop start).take mc] = ws := Option.some_inj.mp hw
      obtain ⟨ha, hb, hc⟩ := winSingle s mc ov start hov hlt (by omega)
      exact ⟨List.cons_ne_nil _ _, rfl, ⟨ha, hb⟩, by
        simp only [concatOverlap, List.map_nil, List.flatten_nil, List.append_nil]
        exact hc⟩
    · rw [if_neg h1] at hw
      have hlt2 : start + mc < s.length := by omega
      have hmin : min (start + mc) s.length = start + mc := by omega
      rw [hmin] at hw
      obtain ⟨ws', hws', rfl⟩ := Option.map_eq_some'.mp hw
      have hstart' : (start + mc - ov) + ov < s.length := by omega
      obtain ⟨hne', hhead', hchain', hcat'⟩ := ih (start + mc - ov) ws' hstart' hws'
      rcases ws' with - | ⟨w', rest⟩
      · exact absurd rfl hne'
      have hw' : w' = (s.drop (start + mc - ov)).take mc := by
        simpa using hhead'
      have hwlen : ((s.drop start).take mc).length = mc := by
        rw [List.length_take, List.length_drop]
        omega
      have hw'len : ov < w'.length := by
        rw [hw', List.length_take, List.length_drop]
        omega
      have hshare : ((s.drop start).take mc).drop (mc - ov) = w'.take ov := by
        rw [List.drop_take, List.drop_drop, hw', List.take_take]
        have e1 : mc - (mc - ov) = ov := by omega
        have e2 : min ov mc = ov := by omega
        have e3 : start + (mc - ov) = start + mc - ov := by omega
        rw [e1, e2, e3]
      refine ⟨List.cons_ne_nil _ _, rfl, ⟨hwlen, hshare, hchain'⟩, ?_⟩
      show (s.drop start).take mc ++
        ((w' :: rest).map (fun x => x.drop ov)).flatten = s.drop start
      have hdropcat : ((w' :: rest).map (fun x => x.drop ov)).flatten =
          (concatOverlap ov (w' :: rest)).drop ov := by
        simp only [concatOverlap, List.map_cons, List.flatten_cons]
        rw [List.drop_append_of_le_length (Nat.le_of_lt hw'len)]
      rw [hdropcat, hcat', List.drop_drop]
      have e4 : start + mc - ov + ov = start + mc := by omega
      rw [e4]
      have e5 : s.drop (start + mc) = (s.drop start).drop mc := by
        rw [List.drop_drop]
      rw [e5, List.take_append_drop]

theorem windowLoop_isSome (s : List Char) (mc ov : Nat) (hov : ov < mc) :
    ∀ fuel start, s.length ≤ start + mc + fuel * (mc - ov) →
      (windowLoop s mc ov fuel start).isSome = true := by
  intro fuel
  induction fuel with
  | zero =>
    intro start h
    simp only [Nat.zero_mul, Nat.add_zero] at h
    simp only [windowLoop]
    rw [if_pos (by omega)]
    rfl
  | succ f ih =>
    intro start h
    simp only [windowLoop]
    by_cases h1 : min (start + mc) s.length = s.length
    · rw [if_pos h1]
      rfl
    · rw [if_neg h1]
      have hmul : (f + 1) * (mc - ov) = f * (mc - ov) + (mc - ov) :=
        Nat.succ_mul ..
      have hb : s.length ≤ (min (start + mc) s.length - ov) + mc + f * (mc - ov) := by
        omega
      have := ih (min (start + mc) s.length - ov) hb
      rw [Option.isSome_map']
      exact this

theorem windowLoop_stuck (s : List Char) (mc ov : Nat) (hmo : mc ≤ ov) :
    ∀ fuel start, start + mc < s.length → windowLoop s mc ov fuel start = none := by
  intro fuel
  induction fuel with
  | zero =>
    intro start h
    simp only [windowLoop]
    rw [if_neg (by omega)]
  | succ f ih =>
    intro start h
    simp only [windowLoop]
    rw [if_neg (by omega)]
    have hh : (min (start + mc) s.length - ov) + mc < s.length := by omega
    rw [ih _ hh]
    rfl

theorem mapM_isSome {α β : Type} (f : α → Option β) :
    ∀ l : List α, (∀ a ∈ l, (f a).isSome = true) → ∃ ys, l.mapM f = some ys := by
  intro l
  induction l with
  | nil => intro _; exact ⟨[], rfl⟩
  | cons a l ih =>
    intro h
    obtain ⟨y, hy⟩ := Option.isSome_iff_exists.mp (h a (List.mem_cons_self _ _))
    obtain ⟨ys, hys⟩ := ih (fun b hb => h b (List.mem_cons_of_mem _ hb))
    refine ⟨y :: ys, ?_⟩
    rw [List.mapM_cons, hy, hys]
    rfl

/-- **C9**: with `overlap < max_chars` and `max_chars ≥ 1` the basic
chunker terminates on every input (the window start strictly increases,
so fuel `len(s)` suffices and a full chunk list is returned); with
`overlap ≥ max_chars` on a block extending past the window the loop
never advances — it returns no result at any fuel. -/
theorem chunk_text_termination :
    (∀ (t : List Char) (mc ov : Nat), 1 ≤ mc → ov < mc →
        ∃ cs, chunk_text t mc ov = some cs) ∧
      ∀ (s : List Char) (mc ov fuel start : Nat), mc ≤ ov →
        start + mc < s.length → windowLoop s mc ov fuel start = none := by
  constructor
  · intro t mc ov hmc hov
    have hpush : ∀ b, (pushWithOverlap mc ov b).isSome = true := by
      intro b
      unfold pushWithOverlap
      by_cases h0 : (pyStrip b).isEmpty
      · rw [if_pos h0]
        rfl
      · rw [if_neg h0]
        by_cases h2 : (pyStrip b).length ≤ mc
        · rw [if_pos h2]
          rfl
        · rw [if_neg h2]
          have h3 : (pyStrip b).length ≤ (pyStrip b).length * (mc - ov) :=
            Nat.le_mul_of_pos_right _ (by omega)
          exact windowLoop_isSome (pyStrip b) mc ov hov (pyStrip b).length 0
            (by omega)
    obtain ⟨ys, hys⟩ := mapM_isSome (pushWithOverlap mc ov)
      (splitBlank (pyStrip t)) (fun b _ => hpush b)
    refine ⟨ys.flatten, ?_⟩
    unfold chunk_text
    rw [hys]
    rfl
  · intro s mc ov fuel start hmo h
    exact windowLoop_stuck s mc ov hmo fuel start h

/-- Witness for C9: termination at `max_chars = 2, overlap = 1`, and a
stuck loop at `max_chars = 2, overlap = 2`. -/
theorem chunk_text_termination_witness :
    (∃ cs, chunk_text "abcde".toList 2 1 = some cs) ∧
      windowLoop "abcde".toList 2 2 5 0 = none :=
  ⟨chunk_text_termination.1 "abcde".toList 2 1 (by decide) (by decide),
   chunk_text_termination.2 "abcde".toList 2 2 5 0 (by decide) (by decide)⟩

/-- **C5** (amended): each block of the blank-line split is **stripped**
before the size test; a non-empty stripped block within `max_chars` is
emitted whole; a longer stripped block is emitted as windows that all
have length `max_chars` except the last (whose length lies in
`(overlap, max_chars]`), consecutive windows share exactly `overlap`
characters, and the windows in order reconstruct the **stripped** block
exactly. -/
theorem chunk_text_overlap (t : List Char) (mc ov : Nat)
    (_hmc : 1 ≤ mc) (hov : ov < mc) :
    chunk_text t mc ov =
        ((splitBlank (pyStrip t)).mapM (pushWithOverlap mc ov)).map List.flatten ∧
      ∀ b ∈ splitBlank (pyStrip t),
        (pyStrip b ≠ [] → (pyStrip b).length ≤ mc →
          pushWithOverlap mc ov b = some [pyStrip b]) ∧
        (mc < (pyStrip b).length →
          ∃ ws, pushWithOverlap mc ov b = some ws ∧ ws ≠ [] ∧
            winChain mc ov ws ∧ concatOverlap ov ws = pyStrip b) := by
  refine ⟨rfl, ?_⟩
  intro b _
  constructor
  · intro hne hle
    unfold pushWithOverlap
    rw [if_neg (by simpa using hne), if_pos hle]
  · intro hgt
    have h0 : ¬ (pyStrip b).isEmpty = true := by
      simp only [List.isEmpty_eq_true]
      intro hc
      rw [hc] at hgt
      simp at hgt
    have hsome : (windowLoop (pyStrip b) mc ov (pyStrip b).length 0).isSome = true := by
      have h3 : (pyStrip b).length ≤ (pyStrip b).length * (mc - ov) :=
        Nat.le_mul_of_pos_right _ (by omega)
      exact windowLoop_isSome (pyStrip b) mc ov hov (pyStrip b).length 0 (by omega)
    obtain ⟨ws, hws⟩ := Option.isSome_iff_exists.mp hsome
    obtain ⟨hne', -, hchain, hcat⟩ :=
      windowLoop_spec (pyStrip b) mc ov hov (pyStrip b).length 0 ws (by omega) hws
    refine ⟨ws, ?_, hne', hchain, by simpa using hcat⟩
    unfold pushWithOverlap
    rw [if_neg h0, if_neg (by omega)]
    exact hws

/-- Witness for C5 at `"abcdefgh"`, `max_chars = 3`, `overlap = 1`. -/
theorem chunk_text_overlap_witness :
    (chunk_text "abcdefgh".toList 3 1 =
        ((splitBlank (pyStrip "abcdefgh".toList)).mapM
          (pushWithOverlap 3 1)).map List.flatten ∧
      ∀ b ∈ splitBlank (pyStrip "abcdefgh".toList),
        (pyStrip b ≠ [] → (pyStrip b).length ≤ 3 →
          pushWithOverlap 3 1 b = some [pyStrip b]) ∧
        (3 < (pyStrip b).length →
          ∃ ws, pushWithOverlap 3 1 b = some ws ∧ ws ≠ [] ∧
            winChain 3 1 ws ∧ concatOverlap 1 ws = pyStrip b)) :=
  chunk_text_overlap "abcdefgh".toList 3 1 (by decide) (by decide)

/-- **C5, counterexample to the claim as stated**: on
`"x\n\n  aaaa"` with `max_chars = 3, overlap = 1` the second raw block
is `"  aaaa"` (length 6 > 3), but the emitted windows are
`["aaa", "aa"]` — computed over the **stripped** block: the last window
does not have size `max_chars` and the windows reconstruct `"aaaa"`,
not the raw block. -/
theorem chunk_text_overlap_ce :
    chunk_text "x\n\n  aaaa".toList 3 1 =
        some ["x".toList, "aaa".toList, "aa".toList] ∧
      splitBlank (pyStrip "x\n\n  aaaa".toList) =
        ["x".toList, "  aaaa".toList] ∧
      ("aa".toList).length ≠ 3 ∧
      concatOverlap 1 ["aaa".toList, "aa".toList] ≠ "  aaaa".toList := by
  decide

end LogCopilot
